/-
Verification of the PII detection and masking engine
(app/services/pii_masking.py) against its design specification.

Texts are modelled as lists of characters (`Str`), positions as `Nat`.
Python's `re` patterns are modelled by a small backtracking matcher over
an explicit pattern syntax (`RE`) that mirrors Python's semantics for the
five fixed patterns of the engine: ordered alternation, greedy `?` and
greedy character-class repetition, and `\b` word boundaries.  External
collaborators (spaCy, hashlib, uuid, datetime, the Redis cache) are
modelled as explicit parameters / returned write lists, exactly as the
spec treats them (collaborators, not part of the core).
-/
import Mathlib

set_option linter.unusedVariables false

/-- Texts and string values: Python `str` as a list of characters. -/
abbrev Str := List Char

/-- Coerce a Lean string literal to the `Str` model. -/
def strOf (s : String) : Str := s.data

/-- Python `str.upper()` (ASCII, as used by the engine). -/
def strUpper (s : Str) : Str := s.map Char.toUpper

/-- Python `str.lower()` (ASCII, as used by the engine). -/
def strLower (s : Str) : Str := s.map Char.toLower

/-- Decimal digit to character, `0 ↦ '0', …, 9 ↦ '9'`. -/
def digitToChar (d : Nat) : Char := Char.ofNat (48 + d)

/-- Fuel-driven decimal printer for positive naturals (most significant
digit first); `natToStr` below adds the `n = 0` case.  This models
Python `str(int)` inside f-strings. -/
def natToStrAux : Nat → Nat → Str
  | 0, _ => []
  | fuel + 1, n => if n = 0 then [] else natToStrAux fuel (n / 10) ++ [digitToChar (n % 10)]

/-- Python `str(n)` for a natural number `n`. -/
def natToStr (n : Nat) : Str := if n = 0 then ['0'] else natToStrAux (n + 1) n

/-- Python `\s` for the ASCII texts the engine handles:
space, tab, newline, carriage return, vertical tab, form feed. -/
def pyIsSpace (c : Char) : Bool :=
  c == ' ' || c == '\t' || c == '\n' || c == '\r' || c == '\x0b' || c == '\x0c'

/-- Python `\w` (ASCII): alphanumeric or underscore. -/
def isWordChar (c : Char) : Bool := c.isAlphanum || c == '_'

/-- Word-boundary test between the previous character (if any) and the
next character (if any), as Python `\b`. -/
def isBoundary (prev : Option Char) (s : Str) : Bool :=
  let pw := match prev with | some c => isWordChar c | none => false
  let nw := match s with | c :: _ => isWordChar c | [] => false
  pw != nw

/-- Pattern syntax covering the five fixed regexes of the engine.
Unbounded repetition only ever applies to single-character classes in
those patterns, so it is modelled by `plusCls` / `atLeastCls`. -/
inductive RE where
  | eps : RE
  | lit : Char → RE
  | cls : (Char → Bool) → RE
  | seq : RE → RE → RE
  | alt : RE → RE → RE
  | opt : RE → RE
  | plusCls : (Char → Bool) → RE
  | atLeastCls : (Char → Bool) → Nat → RE
  | wordB : RE

/-- `{n}` bounded repetition, unfolded into sequencing. -/
def RErep (a : RE) : Nat → RE
  | 0 => .eps
  | n + 1 => .seq a (RErep a n)

/-- Greedy matching of a character class repeated at least `min` times:
consume as many class characters as possible, then give characters back
one at a time (longest match first), as Python's backtracking does. -/
def greedy (p : Char → Bool) (k : Option Char → Str → Option Str) :
    Option Char → Str → Nat → Option Str
  | prev, [], min => if min = 0 then k prev [] else none
  | prev, x :: s, min =>
    if p x then
      (greedy p k (some x) s (min - 1)) <|> (if min = 0 then k prev (x :: s) else none)
    else
      if min = 0 then k prev (x :: s) else none

/-- Backtracking matcher in continuation-passing style.  `prev` is the
character just before the current position (needed for `\b`); the
continuation receives the updated `prev` and the remaining input.  The
first success in Python's preference order is returned: alternation
tries the left branch first, `opt` tries matching first, repetition is
greedy. -/
def matchRE : RE → Option Char → Str → (Option Char → Str → Option Str) → Option Str
  | .eps, prev, s, k => k prev s
  | .lit _, _, [], _ => none
  | .lit c, _, x :: s, k => if x == c then k (some x) s else none
  | .cls _, _, [], _ => none
  | .cls p, _, x :: s, k => if p x then k (some x) s else none
  | .seq a b, prev, s, k => matchRE a prev s (fun prev2 s2 => matchRE b prev2 s2 k)
  | .alt a b, prev, s, k => (matchRE a prev s k) <|> (matchRE b prev s k)
  | .opt a, prev, s, k => (matchRE a prev s k) <|> k prev s
  | .plusCls p, prev, s, k => greedy p k prev s 1
  | .atLeastCls p n, prev, s, k => greedy p k prev s n
  | .wordB, prev, s, k => if isBoundary prev s then k prev s else none

/-- Try to match `r` at the current position; on success return the
remaining input after the match. -/
def matchAt (r : RE) (prev : Option Char) (s : Str) : Option Str :=
  matchRE r prev s (fun _ rest => some rest)

/-- `re.finditer` scan: left to right, non-overlapping, resuming right
after each (non-empty) match.  Returns `(start, end, matched text)`
triples.  Fuel is the length of the remaining input plus one; every
step either consumes at least one character or stops. -/
def finditerAux (r : RE) : Nat → Option Char → Str → Nat → List (Nat × Nat × Str)
  | 0, _, _, _ => []
  | fuel + 1, prev, s, idx =>
    match matchAt r prev s with
    | some rest =>
      let len := s.length - rest.length
      if len = 0 then
        match s with
        | [] => [(idx, idx, [])]
        | c :: s2 => (idx, idx, []) :: finditerAux r fuel (some c) s2 (idx + 1)
      else
        (idx, idx + len, s.take len) :: finditerAux r fuel ((s.take len).getLast?) rest (idx + len)
    | none =>
      match s with
      | [] => []
      | c :: s2 => finditerAux r fuel (some c) s2 (idx + 1)

/-- All matches of `r` in `text`, as Python `re.finditer`. -/
def finditer (r : RE) (text : Str) : List (Nat × Nat × Str) :=
  finditerAux r (text.length + 1) none text 0

/-- Python `hay.find(needle)` helper, index-threaded. -/
def strFindAux (needle : Str) : Str → Nat → Option Nat
  | hay, i =>
    if needle.isPrefixOf hay then some i
    else
      match hay with
      | [] => none
      | _ :: t => strFindAux needle t (i + 1)

/-- Python `hay.find(needle)`: index of the first occurrence, `none`
standing for Python's `-1`. -/
def strFind (hay needle : Str) : Option Nat := strFindAux needle hay 0

/-- Python `needle in hay` substring test. -/
def containsSubstr (hay needle : Str) : Bool := (strFind hay needle).isSome

/-- Python `s.replace(old, new)` when `old` is empty: `new` is inserted
before every character and at the end. -/
def strReplaceEmpty (new : Str) : Str → Str
  | [] => new
  | c :: t => new ++ c :: strReplaceEmpty new t

/-- Python `s.replace(old, new)` for non-empty `old`, with fuel. -/
def strReplaceAux (old new : Str) : Str → Nat → Str
  | s, 0 => s
  | s, fuel + 1 =>
    if old.isPrefixOf s then new ++ strReplaceAux old new (s.drop old.length) fuel
    else
      match s with
      | [] => []
      | c :: t => c :: strReplaceAux old new t fuel

/-- Python `s.replace(old, new)`: replace every (leftmost-first,
non-overlapping) occurrence of `old` in `s` by `new`. -/
def strReplace (s old new : Str) : Str :=
  if old.isEmpty then strReplaceEmpty new s else strReplaceAux old new s (s.length + 1)

/-- Python `text.split()`: split on whitespace runs, no empty tokens.
The accumulator holds the current token reversed. -/
def pySplitAux : Str → Str → List Str
  | [], acc => if acc.isEmpty then [] else [acc.reverse]
  | c :: t, acc =>
    if pyIsSpace c then
      if acc.isEmpty then pySplitAux t [] else acc.reverse :: pySplitAux t []
    else pySplitAux t (c :: acc)

/-- Python `text.split()`. -/
def pySplit (t : Str) : List Str := pySplitAux t []

/-- Python `s.strip(chars)`: remove characters of `cs` from both ends. -/
def pyStrip (cs : List Char) (w : Str) : Str :=
  ((w.dropWhile (cs.contains ·)).reverse.dropWhile (cs.contains ·)).reverse

/-- `PIIDetection` (the spec's Span): a detected sensitive range with
its category, method, replacement string and unique token. -/
structure PIIDetection where
  pii_type : Str
  value : Str
  start_pos : Nat
  end_pos : Nat
  detection_method : Str
  masked_value : Str
  token : Str
deriving DecidableEq, Repr

/-- Digit character class `\d`. -/
def isDigitC (c : Char) : Bool := c.isDigit

/-- Character class `[-\s]`. -/
def isDashSpace (c : Char) : Bool := c == '-' || pyIsSpace c

/-- `\d{4}`. -/
def REd4 : RE := RErep (.cls isDigitC) 4

/-- `(?:\+91[-\s]?)?(?:0?[6-9]\d{9}|\d{10})` — the `phone` pattern. -/
def phoneRE : RE :=
  .seq (.opt (.seq (.lit '+') (.seq (.lit '9') (.seq (.lit '1') (.opt (.cls isDashSpace))))))
    (.alt
      (.seq (.opt (.lit '0'))
        (.seq (.cls (fun c => '6' ≤ c && c ≤ '9')) (RErep (.cls isDigitC) 9)))
      (RErep (.cls isDigitC) 10))

/-- `[A-Za-z0-9._%+-]` (local part of the `email` pattern). -/
def emailLocalChar (c : Char) : Bool :=
  c.isAlpha || c.isDigit || c == '.' || c == '_' || c == '%' || c == '+' || c == '-'

/-- `[A-Za-z0-9.-]` (domain of the `email` pattern). -/
def emailDomainChar (c : Char) : Bool := c.isAlpha || c.isDigit || c == '.' || c == '-'

/-- `[A-Z|a-z]` (top-level domain of the `email` pattern; the class
literally contains `|`). -/
def tldChar (c : Char) : Bool := c.isAlpha || c == '|'

/-- `\b[A-Za-z0-9._%+-]+@[A-Za-z0-9.-]+\.[A-Z|a-z]{2,}\b` — `email`. -/
def emailRE : RE :=
  .seq .wordB
    (.seq (.plusCls emailLocalChar)
      (.seq (.lit '@')
        (.seq (.plusCls emailDomainChar)
          (.seq (.lit '.') (.seq (.atLeastCls tldChar 2) .wordB)))))

/-- `\b\d{4}[-\s]?\d{4}[-\s]?\d{4}\b` — the `aadhar` pattern. -/
def aadharRE : RE :=
  .seq .wordB
    (.seq REd4
      (.seq (.opt (.cls isDashSpace))
        (.seq REd4 (.seq (.opt (.cls isDashSpace)) (.seq REd4 .wordB)))))

/-- `\b(?:\d{4}[-\s]?){3}\d{4}\b` — the `credit_card` pattern. -/
def creditCardRE : RE :=
  .seq .wordB (.seq (RErep (.seq REd4 (.opt (.cls isDashSpace))) 3) (.seq REd4 .wordB))

/-- `\b[A-Z]{5}[0-9]{4}[A-Z]{1}\b` — the `pan` pattern.  The source
compiles it with `re.IGNORECASE`, so `[A-Z]` accepts any letter. -/
def panRE : RE :=
  .seq .wordB
    (.seq (RErep (.cls Char.isAlpha) 5) (.seq REd4 (.seq (RErep (.cls Char.isAlpha) 1) .wordB)))

/-- `self.patterns`: the pattern table, in dictionary insertion order. -/
def patterns : List (Str × RE) :=
  [(strOf "phone", phoneRE), (strOf "email", emailRE), (strOf "aadhar", aadharRE),
   (strOf "credit_card", creditCardRE), (strOf "pan", panRE)]

/-- `self.indian_names['male']`. -/
def indian_names_male : List Str :=
  [strOf "rajesh", strOf "amit", strOf "rohit", strOf "vikram", strOf "suresh", strOf "deepak",
   strOf "anil", strOf "manoj", strOf "prakash", strOf "vinod", strOf "ashok", strOf "ravi",
   strOf "mohan", strOf "krishna", strOf "ganesh", strOf "shiva", strOf "arjun", strOf "kiran",
   strOf "ajay", strOf "rahul", strOf "ankit", strOf "nitin", strOf "sachin", strOf "vishal",
   strOf "pradeep", strOf "mahesh", strOf "santosh", strOf "dinesh", strOf "ramesh",
   strOf "mukesh", strOf "yogesh"]

/-- `self.indian_names['female']`. -/
def indian_names_female : List Str :=
  [strOf "priya", strOf "sneha", strOf "pooja", strOf "kavya", strOf "anita", strOf "meera",
   strOf "divya", strOf "riya", strOf "sita", strOf "nisha", strOf "lakshmi", strOf "radha",
   strOf "geeta", strOf "shanti", strOf "indira", strOf "parvati", strOf "saraswati",
   strOf "durga", strOf "kali", strOf "sunita", strOf "rekha", strOf "sonia", strOf "neha",
   strOf "asha", strOf "usha", strOf "rita", strOf "lata", strOf "maya", strOf "kiran",
   strOf "jyoti", strOf "sapna"]

/-- `_mask_phone`: keep the last 4 digits, fixed-width mask for the
rest, preserving a leading `+91` marker. -/
def mask_phone (phone : Str) : Str :=
  let clean_phone := phone.filter (fun c => c.isDigit || c == '+')
  if clean_phone.length ≥ 10 then
    if (strOf "+91").isPrefixOf clean_phone then
      strOf "+91-****-****-" ++ clean_phone.drop (clean_phone.length - 4)
    else
      strOf "****-****-" ++ clean_phone.drop (clean_phone.length - 4)
  else strOf "****-****-****"

/-- `_mask_email`: keep the first character of the local part and the
full domain. -/
def mask_email (email : Str) : Str :=
  let parts := email.splitOn '@'
  match parts with
  | [username, domain] =>
    if username.length > 1 then username.take 1 ++ strOf "****@" ++ domain
    else strOf "****@" ++ domain
  | _ => strOf "****@****.com"

/-- Token built for a regex detection:
`f"[{pii_type.upper()}_MASKED_{len(detections)}]"`. -/
def regexToken (pii_type : Str) (n : Nat) : Str :=
  strOf "[" ++ strUpper pii_type ++ strOf "_MASKED_" ++ natToStr n ++ strOf "]"

/-- One iteration of the inner loop of `detect_pii_regex`: append the
detection built from one regex match. -/
def regexEmit (pii_type : Str) (detections : List PIIDetection) (m : Nat × Nat × Str) :
    List PIIDetection :=
  let value := m.2.2
  let start_pos := m.1
  let end_pos := m.2.1
  let masked_value :=
    if pii_type = strOf "phone" then mask_phone value
    else if pii_type = strOf "email" then mask_email value
    else if pii_type = strOf "aadhar" ∨ pii_type = strOf "credit_card" ∨ pii_type = strOf "pan"
      then strOf "[REDACTED]"
    else List.replicate value.length '*'
  let token := regexToken pii_type detections.length
  detections ++ [⟨pii_type, value, start_pos, end_pos, strOf "regex", masked_value, token⟩]

/-- `detect_pii_regex`: run every pattern of the table over the text,
collecting detections in pattern order then match order. -/
def detect_pii_regex (text : Str) : List PIIDetection :=
  patterns.foldl
    (fun detections p => (finditer p.2 text).foldl (regexEmit p.1) detections) []

/-- A spaCy entity, as consumed by `detect_pii_ner`: label (`PERSON`,
`ORG`, …), covered text and character offsets. -/
structure SpacyEnt where
  label : Str
  text : Str
  start_char : Nat
  end_char : Nat
deriving DecidableEq, Repr

/-- One iteration of the loop of `detect_pii_ner`, threading
`(detections, person_count, org_count)`. -/
def nerEmit (st : List PIIDetection × Nat × Nat) (ent : SpacyEnt) :
    List PIIDetection × Nat × Nat :=
  let detections := st.1
  let person_count := st.2.1
  let org_count := st.2.2
  if ent.label = strOf "PERSON" ∨ ent.label = strOf "ORG" then
    let pii_type := strLower ent.label
    if pii_type = strOf "person" then
      let token := strOf "[PERSON_MASKED_" ++ natToStr person_count ++ strOf "]"
      (detections ++ [⟨pii_type, ent.text, ent.start_char, ent.end_char, strOf "ner",
          token, token⟩], person_count + 1, org_count)
    else
      let token := strOf "[ORG_MASKED_" ++ natToStr org_count ++ strOf "]"
      (detections ++ [⟨pii_type, ent.text, ent.start_char, ent.end_char, strOf "ner",
          token, token⟩], person_count, org_count + 1)
  else st

/-- `detect_pii_ner`: spaCy is an optional external capability; `nlp`
is `none` when the model is unavailable (the engine then returns `[]`),
otherwise a function giving the entities of the text. -/
def detect_pii_ner (nlp : Option (Str → List SpacyEnt)) (text : Str) : List PIIDetection :=
  match nlp with
  | none => []
  | some model => ((model text).foldl nerEmit ([], 0, 0)).1

/-- The punctuation stripped from name tokens: `'.,!?;:'`. -/
def stripChars : List Char := strOf ".,!?;:"

/-- The cleaned form of a whitespace token: `word.lower().strip('.,!?;:')`. -/
def cleanWord (w : Str) : Str := pyStrip stripChars (strLower w)

/-- One iteration of the loop of `detect_indian_names`. -/
def nameEmit (text : Str) (detections : List PIIDetection) (word : Str) : List PIIDetection :=
  let word_clean := cleanWord word
  if indian_names_male.contains word_clean || indian_names_female.contains word_clean then
    match strFind (strLower text) word_clean with
    | some start_pos =>
      let end_pos := start_pos + word_clean.length
      let token := strOf "[NAME_MASKED_" ++ natToStr detections.length ++ strOf "]"
      detections ++ [⟨strOf "indian_name", word_clean, start_pos, end_pos,
        strOf "name_pattern", token, token⟩]
    | none => detections
  else detections

/-- `detect_indian_names`: match whitespace tokens against the name
dictionaries; offsets come from `text.lower().find(word_clean)`. -/
def detect_indian_names (text : Str) : List PIIDetection :=
  (pySplit text).foldl (nameEmit text) []

/-- `method_priority = {'regex': 3, 'ner': 2, 'name_pattern': 1}`. -/
def method_priority : List (Str × Nat) :=
  [(strOf "regex", 3), (strOf "ner", 2), (strOf "name_pattern", 1)]

/-- `method_priority.get(method, 0)`. -/
def priorityOf (m : Str) : Nat := (method_priority.lookup m).getD 0

/-- The overlap test of the resolver:
`current.start_pos < accepted.end_pos and current.end_pos > accepted.start_pos`. -/
def overlapsB (current accepted : PIIDetection) : Bool :=
  decide (current.start_pos < accepted.end_pos) && decide (current.end_pos > accepted.start_pos)

/-- The overlap relation as a proposition. -/
def Overlaps (a b : PIIDetection) : Prop :=
  a.start_pos < b.end_pos ∧ b.start_pos < a.end_pos

/-- `sorted(…, key=lambda x: x.start_pos)`: Python's stable sort by
start position (insertion sort is stable, hence the same function). -/
def sortByStart (l : List PIIDetection) : List PIIDetection :=
  List.insertionSort (fun a b => a.start_pos ≤ b.start_pos) l

/-- `sorted(…, key=lambda x: x.start_pos, reverse=True)`: Python's
stable descending sort. -/
def sortByStartDesc (l : List PIIDetection) : List PIIDetection :=
  List.insertionSort (fun a b => b.start_pos ≤ a.start_pos) l

/-- One iteration of the resolver loop: scan the accepted list for the
first overlapping span (`break` after the first hit); on overlap the
candidate replaces it only with strictly greater method priority,
otherwise the candidate is dropped; with no overlap it is accepted. -/
def resolveStep (filtered : List PIIDetection) (current : PIIDetection) : List PIIDetection :=
  match filtered.find? (fun accepted => overlapsB current accepted) with
  | none => filtered ++ [current]
  | some accepted =>
    if priorityOf current.detection_method > priorityOf accepted.detection_method then
      (filtered.erase accepted) ++ [current]
    else filtered

/-- `_remove_overlapping_detections`. -/
def remove_overlapping_detections (detections : List PIIDetection) : List PIIDetection :=
  if detections.isEmpty then []
  else sortByStart ((sortByStart detections).foldl resolveStep [])

/-- `detect_pii`: all three detectors, then overlap resolution. -/
def detect_pii (nlp : Option (Str → List SpacyEnt)) (text : Str) : List PIIDetection :=
  remove_overlapping_detections
    (detect_pii_regex text ++ detect_pii_ner nlp text ++ detect_indian_names text)

/-- The value stored under a token in the session PII map: category,
truncated hash, method, masked value and offsets — never the raw value. -/
structure PIIMapEntry where
  type : Str
  hash : Str
  method : Str
  masked_value : Str
  position : Nat × Nat
deriving DecidableEq, Repr

/-- Python dict assignment `m[k] = v`: overwrite in place if the key
exists (keeping its position), else append. -/
def dictInsert (m : List (Str × PIIMapEntry)) (k : Str) (v : PIIMapEntry) :
    List (Str × PIIMapEntry) :=
  if m.any (fun p => p.1 == k) then m.map (fun p => if p.1 == k then (k, v) else p)
  else m ++ [(k, v)]

/-- One iteration of the loop of `mask_text`.  `sha` models
`hashlib.sha256(value).hexdigest()[:16]` (an external library call). -/
def maskStep (sha : Str → Str) (st : Str × List (Str × PIIMapEntry)) (detection : PIIDetection) :
    Str × List (Str × PIIMapEntry) :=
  let masked_text := st.1
  let pii_map := st.2
  let pii_hash := sha detection.value
  let masked_text2 :=
    masked_text.take detection.start_pos ++ detection.masked_value ++
      masked_text.drop detection.end_pos
  let pii_map2 := dictInsert pii_map detection.token
    ⟨detection.pii_type, pii_hash, detection.detection_method, detection.masked_value,
      (detection.start_pos, detection.end_pos)⟩
  (masked_text2, pii_map2)

/-- `mask_text`: rewrite the text highest offset first and build the
token map. -/
def mask_text (sha : Str → Str) (text : Str) (detected_pii : List PIIDetection) :
    Str × List (Str × PIIMapEntry) :=
  if detected_pii.isEmpty then (text, [])
  else (sortByStartDesc detected_pii).foldl (maskStep sha) (text, [])

/-- The audit record stored under `pii_audit:{session_id}`. -/
structure AuditData where
  session_id : Str
  timestamp : Str
  pii_types : List Str
  detection_methods : List Str
  pii_count : Nat
deriving DecidableEq, Repr

/-- A value written to the external cache. -/
inductive CacheValue where
  | piiMap : List (Str × PIIMapEntry) → CacheValue
  | audit : AuditData → CacheValue
deriving DecidableEq, Repr

/-- One `cache_set(key, value, ttl)` call. -/
structure CacheWrite where
  key : Str
  value : CacheValue
  ttl : Nat
deriving DecidableEq, Repr

/-- The dictionary returned by `process_user_input`. -/
structure ProcessResult where
  original_text : Str
  masked_text : Str
  session_id : Str
  pii_detected : List (Str × Str)
  pii_count : Nat
deriving DecidableEq, Repr

/-- `process_user_input`.  The fresh uuid (`session_id`) and
`datetime.utcnow().isoformat()` (`timestamp`) are external inputs; the
`cache_set` calls are returned as a write list.  `list(set(...))` on
the detection methods is modelled as first-occurrence deduplication
(Python's set iteration order is unspecified). -/
def process_user_input (nlp : Option (Str → List SpacyEnt)) (sha : Str → Str)
    (session_id timestamp : Str) (text : Str) : ProcessResult × List CacheWrite :=
  let detected_pii := detect_pii nlp text
  let mres := mask_text sha text detected_pii
  let masked_text := mres.1
  let pii_map := mres.2
  let writes :=
    if pii_map.isEmpty then []
    else
      [⟨strOf "pii_map:" ++ session_id, .piiMap pii_map, 3600⟩,
       ⟨strOf "pii_audit:" ++ session_id,
        .audit ⟨session_id, timestamp, detected_pii.map (·.pii_type),
          (detected_pii.map (·.detection_method)).eraseDups, detected_pii.length⟩, 86400⟩]
  (⟨text, masked_text, session_id,
    detected_pii.map (fun d => (d.pii_type, d.detection_method)), detected_pii.length⟩, writes)

/-- `unmask_response`: `pii_map` is the value retrieved from the cache
for the session id (`none` when absent or expired).  When present,
every token contained in the text is replaced by its stored
`masked_value` — never by the original raw value, which the map does
not even hold. -/
def unmask_response (masked_text : Str) (pii_map : Option (List (Str × PIIMapEntry))) : Str :=
  match pii_map with
  | none => masked_text
  | some m =>
    if m.isEmpty then masked_text
    else
      m.foldl
        (fun unmasked p =>
          if containsSubstr unmasked p.1 then strReplace unmasked p.1 p.2.masked_value
          else unmasked) masked_text

/-! ### Decimal printing: correctness and injectivity -/

theorem natToStrAux_eq_digits : ∀ (fuel n : Nat), n ≤ fuel →
    natToStrAux fuel n = ((Nat.digits 10 n).map digitToChar).reverse := by
  intro fuel
  induction fuel with
  | zero =>
    intro n hn
    interval_cases n
    simp [natToStrAux]
  | succ fuel ih =>
    intro n hn
    by_cases h0 : n = 0
    · subst h0; simp [natToStrAux]
    · have hpos : 0 < n := Nat.pos_of_ne_zero h0
      have hdiv : n / 10 ≤ fuel := by
        have : n / 10 < n := Nat.div_lt_self hpos (by norm_num)
        omega
      rw [Nat.digits_def' (by norm_num : (1:ℕ) < 10) hpos]
      simp only [natToStrAux, if_neg h0, List.map_cons, List.reverse_cons]
      rw [ih _ hdiv]

theorem natToStr_eq_digits {n : Nat} (h : n ≠ 0) :
    natToStr n = ((Nat.digits 10 n).map digitToChar).reverse := by
  simp only [natToStr, if_neg h]
  exact natToStrAux_eq_digits (n + 1) n (Nat.le_succ n)

theorem digitToChar_isDigit : ∀ d < 10, (digitToChar d).isDigit = true := by decide

theorem natToStr_zero : natToStr 0 = ['0'] := rfl

theorem natToStr_all_digits : ∀ (n : Nat), ∀ c ∈ natToStr n, c.isDigit = true := by
  intro n c hc
  by_cases h0 : n = 0
  · subst h0
    rw [natToStr_zero] at hc
    simp only [List.mem_singleton] at hc
    subst hc; decide
  · rw [natToStr_eq_digits h0] at hc
    rw [List.mem_reverse, List.mem_map] at hc
    obtain ⟨d, hd, rfl⟩ := hc
    exact digitToChar_isDigit d (Nat.digits_lt_base (by norm_num) hd)

theorem natToStr_ne_nil (n : Nat) : natToStr n ≠ [] := by
  by_cases h0 : n = 0
  · subst h0; rw [natToStr_zero]; simp
  · rw [natToStr_eq_digits h0]
    simp only [ne_eq, List.reverse_eq_nil_iff, List.map_eq_nil_iff]
    exact Nat.digits_ne_nil_iff_ne_zero.mpr h0

theorem digitToChar_inj : ∀ a < 10, ∀ b < 10, digitToChar a = digitToChar b → a = b := by decide

theorem map_digitToChar_inj : ∀ (l₁ l₂ : List Nat), (∀ x ∈ l₁, x < 10) → (∀ x ∈ l₂, x < 10) →
    l₁.map digitToChar = l₂.map digitToChar → l₁ = l₂ := by
  intro l₁
  induction l₁ with
  | nil => intro l₂ _ _ h; cases l₂ <;> simp_all
  | cons a t ih =>
    intro l₂ h₁ h₂ h
    cases l₂ with
    | nil => simp at h
    | cons b t₂ =>
      simp only [List.map_cons, List.cons.injEq] at h
      have ha : a = b := digitToChar_inj a (h₁ a (by simp)) b (h₂ b (by simp)) h.1
      have ht : t = t₂ := ih t₂ (fun x hx => h₁ x (by simp [hx])) (fun x hx => h₂ x (by simp [hx])) h.2
      rw [ha, ht]

theorem natToStr_eq_zero_str {n : Nat} (h : natToStr n = ['0']) : n = 0 := by
  by_cases h0 : n = 0
  · exact h0
  · exfalso
    rw [natToStr_eq_digits h0] at h
    have h2 : List.map digitToChar (Nat.digits 10 n) = ['0'] := by
      have := congrArg List.reverse h
      simpa using this
    have h3 : Nat.digits 10 n = [0] := by
      apply map_digitToChar_inj _ _
        (fun x hx => Nat.digits_lt_base (by norm_num) hx)
        (by intro x hx; simp at hx; omega)
      rw [h2]; decide
    have h4 := congrArg (Nat.ofDigits 10) h3
    rw [Nat.ofDigits_digits] at h4
    simp [Nat.ofDigits] at h4
    exact h0 h4

theorem natToStr_inj : ∀ {m n : Nat}, natToStr m = natToStr n → m = n := by
  intro m n h
  by_cases hm : m = 0
  · subst hm
    rw [natToStr_zero] at h
    exact (natToStr_eq_zero_str h.symm).symm
  · by_cases hn : n = 0
    · subst hn
      rw [natToStr_zero] at h
      exact natToStr_eq_zero_str h
    · rw [natToStr_eq_digits hm, natToStr_eq_digits hn] at h
      have h2 := List.reverse_injective h
      have h3 := map_digitToChar_inj _ _
        (fun x hx => Nat.digits_lt_base (by norm_num) hx)
        (fun x hx => Nat.digits_lt_base (by norm_num) hx) h2
      have h4 := congrArg (Nat.ofDigits 10) h3
      rwa [Nat.ofDigits_digits, Nat.ofDigits_digits] at h4

/-! ### Token shape: every token is `[<PREFIX><decimal index>]`, and the
prefix and index can be parsed back out of it -/

/-- Normal form of every token the engine builds: an opening bracket,
a digit-free prefix (category name and `_MASKED_`), the decimal index,
a closing bracket. -/
def pfxToken (pfx : Str) (n : Nat) : Str := '[' :: (pfx ++ (natToStr n ++ [']']))

/-- Parse the decimal index back out of a token. -/
def tokenIdx (t : Str) : Str := ((t.reverse.drop 1).takeWhile Char.isDigit).reverse

/-- Parse the prefix (category plus `_MASKED_`) back out of a token. -/
def tokenPfx (t : Str) : Str := (t.drop 1).takeWhile (fun c => !c.isDigit)

theorem regexToken_eq_pfxToken (ty : Str) (n : Nat) :
    regexToken ty n = pfxToken (strUpper ty ++ strOf "_MASKED_") n := by
  simp [regexToken, pfxToken, strOf, List.append_assoc]

theorem takeWhile_all_append (p : Char → Bool) :
    ∀ (xs ys : Str), (∀ c ∈ xs, p c = true) → (xs ++ ys).takeWhile p = xs ++ ys.takeWhile p := by
  intro xs
  induction xs with
  | nil => simp
  | cons x t ih =>
    intro ys h
    have hx : p x = true := h x (by simp)
    simp only [List.cons_append, List.takeWhile_cons, hx, if_true]
    rw [ih ys (fun c hc => h c (by simp [hc]))]

theorem takeWhile_nil_of_head (p : Char → Bool) (c : Char) (t : Str) (h : p c = false) :
    (c :: t).takeWhile p = [] := by
  simp [List.takeWhile_cons, h]

theorem pfxToken_reverse (pfx : Str) (n : Nat) :
    (pfxToken pfx n).reverse = ']' :: ((natToStr n).reverse ++ (pfx.reverse ++ ['['])) := by
  simp [pfxToken]

theorem tokenIdx_pfxToken (pfx : Str) (n : Nat) (h : ∀ c ∈ pfx, c.isDigit = false) :
    tokenIdx (pfxToken pfx n) = natToStr n := by
  unfold tokenIdx
  rw [pfxToken_reverse]
  simp only [List.drop_succ_cons, List.drop_zero]
  rw [takeWhile_all_append _ _ _ (by
    intro c hc
    rw [List.mem_reverse] at hc
    exact natToStr_all_digits n c hc)]
  have htail : ((pfx.reverse ++ (['['] : Str))).takeWhile Char.isDigit = [] := by
    cases hrev : pfx.reverse with
    | nil => simp [List.takeWhile_cons]
    | cons c t =>
      rw [List.cons_append]
      apply takeWhile_nil_of_head
      have hc : c ∈ pfx := by
        rw [← List.mem_reverse, hrev]; simp
      exact h c hc
  rw [htail]
  simp

theorem tokenPfx_pfxToken (pfx : Str) (n : Nat) (h : ∀ c ∈ pfx, c.isDigit = false) :
    tokenPfx (pfxToken pfx n) = pfx := by
  unfold tokenPfx pfxToken
  simp only [List.drop_succ_cons, List.drop_zero]
  rw [takeWhile_all_append _ _ _ (by
    intro c hc
    simp [h c hc])]
  cases hns : natToStr n with
  | nil => exact absurd hns (natToStr_ne_nil n)
  | cons c t =>
    have hc : c.isDigit = true := natToStr_all_digits n c (by rw [hns]; simp)
    rw [List.cons_append, takeWhile_nil_of_head _ _ _ (by simp [hc])]
    simp

theorem pfxToken_inj (p₁ p₂ : Str) (m n : Nat)
    (h₁ : ∀ c ∈ p₁, c.isDigit = false) (h₂ : ∀ c ∈ p₂, c.isDigit = false)
    (h : pfxToken p₁ m = pfxToken p₂ n) : p₁ = p₂ ∧ m = n := by
  constructor
  · have hp := congrArg tokenPfx h
    rwa [tokenPfx_pfxToken _ _ h₁, tokenPfx_pfxToken _ _ h₂] at hp
  · have hi := congrArg tokenIdx h
    rw [tokenIdx_pfxToken _ _ h₁, tokenIdx_pfxToken _ _ h₂] at hi
    exact natToStr_inj hi

/-! ### Overlap relation -/

theorem overlapsB_iff {a b : PIIDetection} : overlapsB a b = true ↔ Overlaps a b := by
  simp [overlapsB, Overlaps]

theorem Overlaps.symm {a b : PIIDetection} (h : Overlaps a b) : Overlaps b a := ⟨h.2, h.1⟩

theorem noOverlap_symmetric : Symmetric (fun a b : PIIDetection => ¬ Overlaps a b) :=
  fun _ _ h hba => h hba.symm

/-! ### The sort by start position -/

instance : IsTotal PIIDetection (fun a b => a.start_pos ≤ b.start_pos) :=
  ⟨fun a b => Nat.le_total a.start_pos b.start_pos⟩

instance : IsTrans PIIDetection (fun a b => a.start_pos ≤ b.start_pos) :=
  ⟨fun _ _ _ h₁ h₂ => Nat.le_trans h₁ h₂⟩

theorem sortByStart_sorted (l : List PIIDetection) :
    (sortByStart l).Pairwise (fun a b => a.start_pos ≤ b.start_pos) :=
  List.sorted_insertionSort _ l

theorem sortByStart_perm (l : List PIIDetection) : List.Perm (sortByStart l) l :=
  List.perm_insertionSort _ l

/-! ### The overlap resolver preserves pairwise non-overlap -/

/-- A candidate whose start is at least every accepted start overlaps at
most one member of a pairwise non-overlapping accepted list. -/
theorem overlap_unique {acc : List PIIDetection} {c x y : PIIDetection}
    (hpair : acc.Pairwise (fun a b => ¬ Overlaps a b))
    (hstart : ∀ z ∈ acc, z.start_pos ≤ c.start_pos)
    (hx : x ∈ acc) (hy : y ∈ acc) (hox : Overlaps c x) (hoy : Overlaps c y) : x = y := by
  by_contra hne
  have hxy : Overlaps x y :=
    ⟨Nat.lt_of_le_of_lt (hstart x hx) hoy.1, Nat.lt_of_le_of_lt (hstart y hy) hox.1⟩
  exact (hpair.forall noOverlap_symmetric hx hy hne) hxy

/-- If a value is still in the list after erasing one copy of itself,
the list held two copies, so pairwise non-overlap forbids the value
overlapping itself. -/
theorem no_self_overlap_of_mem_erase {acc : List PIIDetection} {a : PIIDetection}
    (hpair : acc.Pairwise (fun u v => ¬ Overlaps u v)) (h : a ∈ acc.erase a) :
    ¬ Overlaps a a := by
  have hcount : 2 ≤ acc.count a := by
    have h1 : 0 < (acc.erase a).count a := List.count_pos_iff.mpr h
    have h2 : (acc.erase a).count a = acc.count a - 1 := List.count_erase_self a acc
    omega
  have hsub : List.Sublist (List.replicate 2 a) acc :=
    List.le_count_iff_replicate_sublist.mp hcount
  have hp2 : (List.replicate 2 a).Pairwise (fun u v => ¬ Overlaps u v) :=
    List.Pairwise.sublist hsub hpair
  simp only [List.replicate, List.pairwise_cons] at hp2
  exact hp2.1 a (by simp)

theorem mem_resolveStep {acc : List PIIDetection} {c x : PIIDetection}
    (h : x ∈ resolveStep acc c) : x ∈ acc ∨ x = c := by
  cases hfind : acc.find? (fun accepted => overlapsB c accepted) with
  | none =>
    simp only [resolveStep, hfind] at h
    rcases List.mem_append.mp h with h' | h'
    · exact Or.inl h'
    · simp at h'; exact Or.inr h'
  | some accepted =>
    simp only [resolveStep, hfind] at h
    split at h
    · rcases List.mem_append.mp h with h' | h'
      · exact Or.inl (List.mem_of_mem_erase h')
      · simp at h'; exact Or.inr h'
    · exact Or.inl h

theorem resolveStep_pairwise {acc : List PIIDetection} {c : PIIDetection}
    (hpair : acc.Pairwise (fun a b => ¬ Overlaps a b))
    (hstart : ∀ z ∈ acc, z.start_pos ≤ c.start_pos) :
    (resolveStep acc c).Pairwise (fun a b => ¬ Overlaps a b) := by
  cases hfind : acc.find? (fun accepted => overlapsB c accepted) with
  | none =>
    have hno : ∀ a ∈ acc, ¬ Overlaps c a := by
      intro a ha
      have := List.find?_eq_none.mp hfind a ha
      simpa [overlapsB_iff] using this
    simp only [resolveStep, hfind]
    rw [List.pairwise_append]
    refine ⟨hpair, by simp, ?_⟩
    intro x hx y hy
    simp only [List.mem_singleton] at hy
    subst hy
    exact fun hxy => hno x hx hxy.symm
  | some a0 =>
    have hov : Overlaps c a0 := overlapsB_iff.mp (List.find?_some hfind)
    have hmem : a0 ∈ acc := List.mem_of_find?_eq_some hfind
    simp only [resolveStep, hfind]
    split
    · rw [List.pairwise_append]
      refine ⟨List.Pairwise.sublist (List.erase_sublist a0 acc) hpair, by simp, ?_⟩
      intro x hx y hy
      simp only [List.mem_singleton] at hy
      subst hy
      intro hxc
      have hxmem : x ∈ acc := List.mem_of_mem_erase hx
      have hocx := hxc.symm
      have hxa0 : x = a0 := overlap_unique hpair hstart hxmem hmem hocx hov
      subst hxa0
      have hself : Overlaps x x :=
        ⟨Nat.lt_of_le_of_lt (hstart x hmem) hov.1, Nat.lt_of_le_of_lt (hstart x hmem) hov.1⟩
      exact no_self_overlap_of_mem_erase hpair hx hself
    · exact hpair

theorem foldl_resolve_pairwise : ∀ (l acc : List PIIDetection),
    acc.Pairwise (fun a b => ¬ Overlaps a b) →
    (∀ z ∈ acc, ∀ d ∈ l, z.start_pos ≤ d.start_pos) →
    l.Pairwise (fun a b => a.start_pos ≤ b.start_pos) →
    (l.foldl resolveStep acc).Pairwise (fun a b => ¬ Overlaps a b) := by
  intro l
  induction l with
  | nil => intro acc h _ _; exact h
  | cons c l ih =>
    intro acc hpair hstart hsort
    rw [List.foldl_cons]
    have hsc := List.pairwise_cons.mp hsort
    apply ih
    · exact resolveStep_pairwise hpair (fun z hz => hstart z hz c (by simp))
    · intro z hz d hd
      rcases mem_resolveStep hz with h' | h'
      · exact hstart z h' d (by simp [hd])
      · subst h'; exact hsc.1 d hd
    · exact hsc.2

/-- C1: for every input list, the output of the Overlap Resolver
(`_remove_overlapping_detections`) has no two overlapping spans
(`a.start_pos < b.end_pos` and `b.start_pos < a.end_pos` never both
hold), and it is sorted by `start_pos` ascending. -/
theorem resolver_output_nonoverlapping_sorted (detections : List PIIDetection) :
    (remove_overlapping_detections detections).Pairwise
      (fun a b => ¬ (a.start_pos < b.end_pos ∧ b.start_pos < a.end_pos)) ∧
    (remove_overlapping_detections detections).Pairwise
      (fun a b => a.start_pos ≤ b.start_pos) := by
  unfold remove_overlapping_detections
  split
  · simp
  · constructor
    · have hfold : ((sortByStart detections).foldl resolveStep []).Pairwise
          (fun a b => ¬ Overlaps a b) :=
        foldl_resolve_pairwise (sortByStart detections) [] (by simp) (by simp)
          (sortByStart_sorted detections)
      have hperm := (sortByStart_perm ((sortByStart detections).foldl resolveStep [])).symm
      exact hfold.perm hperm (fun h => noOverlap_symmetric h)
    · exact sortByStart_sorted _

theorem resolveStep_nil (x : PIIDetection) : resolveStep [] x = [x] := rfl

theorem resolveStep_single {u v : PIIDetection} (h : Overlaps v u) :
    resolveStep [u] v =
      if priorityOf v.detection_method > priorityOf u.detection_method then [v] else [u] := by
  have hb : overlapsB v u = true := overlapsB_iff.mpr h
  simp only [resolveStep, List.find?_cons, hb]
  split <;> simp

theorem sortByStart_pair (a b : PIIDetection) :
    sortByStart [a, b] = if a.start_pos ≤ b.start_pos then [a, b] else [b, a] := by
  simp only [sortByStart, List.insertionSort, List.orderedInsert]

theorem sortByStart_single (a : PIIDetection) : sortByStart [a] = [a] := rfl

theorem remove_pair {x y : PIIDetection} (hov : Overlaps x y) :
    remove_overlapping_detections [x, y] =
      if x.start_pos ≤ y.start_pos then
        (if priorityOf y.detection_method > priorityOf x.detection_method then [y] else [x])
      else
        (if priorityOf x.detection_method > priorityOf y.detection_method then [x] else [y]) := by
  unfold remove_overlapping_detections
  rw [if_neg (by simp)]
  rw [sortByStart_pair]
  by_cases hle : x.start_pos ≤ y.start_pos
  · rw [if_pos hle, if_pos hle]
    rw [List.foldl_cons, List.foldl_cons, List.foldl_nil, resolveStep_nil,
      resolveStep_single hov.symm]
    split <;> rw [sortByStart_single]
  · rw [if_neg hle, if_neg hle]
    rw [List.foldl_cons, List.foldl_cons, List.foldl_nil, resolveStep_nil,
      resolveStep_single hov]
    split <;> rw [sortByStart_single]

/-- C2: for two overlapping spans, whichever order they are given in,
the resolver keeps exactly the span whose detection method has the
strictly higher priority (`regex`/pattern 3 > `ner`/semantic 2 >
`name_pattern`/lexical 1); and on equal priority the candidate never
replaces the accepted span (the earlier-starting span is kept). -/
theorem resolver_priority_pair (a b : PIIDetection) (hov : Overlaps a b) :
    (priorityOf a.detection_method > priorityOf b.detection_method →
      remove_overlapping_detections [a, b] = [a] ∧
      remove_overlapping_detections [b, a] = [a]) ∧
    (priorityOf a.detection_method = priorityOf b.detection_method →
      a.start_pos ≤ b.start_pos →
      remove_overlapping_detections [a, b] = [a]) := by
  constructor
  · intro hgt
    constructor
    · rw [remove_pair hov]
      by_cases hle : a.start_pos ≤ b.start_pos
      · rw [if_pos hle, if_neg (by omega)]
      · rw [if_neg hle, if_pos hgt]
    · rw [remove_pair hov.symm]
      by_cases hle : b.start_pos ≤ a.start_pos
      · rw [if_pos hle, if_pos hgt]
      · rw [if_neg hle, if_neg (by omega)]
  · intro heq hle
    rw [remove_pair hov, if_pos hle, if_neg (by omega)]

instance (a b : PIIDetection) : Decidable (Overlaps a b) :=
  decidable_of_iff (overlapsB a b = true) overlapsB_iff

/-- Span found by the regex phone pattern, used to instantiate the
priority theorem at a concrete overlapping pair. -/
def wSpanA : PIIDetection :=
  ⟨strOf "phone", strOf "98765", 0, 5, strOf "regex", strOf "mA", strOf "tA"⟩

/-- Span found by NER, overlapping `wSpanA`. -/
def wSpanB : PIIDetection :=
  ⟨strOf "person", strOf "abc", 0, 3, strOf "ner", strOf "mB", strOf "tB"⟩

/-- Witness for the priority theorem: a concrete pattern/semantic
overlapping pair is resolved to the pattern span in both input orders. -/
theorem resolver_priority_pair_witness :
    Overlaps wSpanA wSpanB ∧
    priorityOf wSpanA.detection_method > priorityOf wSpanB.detection_method ∧
    remove_overlapping_detections [wSpanA, wSpanB] = [wSpanA] ∧
    remove_overlapping_detections [wSpanB, wSpanA] = [wSpanA] :=
  ⟨by decide, by decide,
    ((resolver_priority_pair wSpanA wSpanB (by decide)).1 (by decide)).1,
    ((resolver_priority_pair wSpanA wSpanB (by decide)).1 (by decide)).2⟩

/-! ### Replacement is the identity where the token does not occur -/

theorem strFind_nil_needle (s : Str) : strFind s [] = some 0 := by
  unfold strFind strFindAux
  simp [List.isPrefixOf]

theorem strFindAux_none_head {old : Str} {hay : Str} {i : Nat}
    (h : strFindAux old hay i = none) : old.isPrefixOf hay = false := by
  unfold strFindAux at h
  cases hb : List.isPrefixOf old hay with
  | true => rw [hb] at h; simp at h
  | false => rfl

theorem strFindAux_none_tail {old : Str} {c : Char} {t : Str} {i : Nat}
    (h : strFindAux old (c :: t) i = none) : strFindAux old t (i + 1) = none := by
  unfold strFindAux at h
  by_cases hp : old.isPrefixOf (c :: t)
  · simp [hp] at h
  · simp only [hp, Bool.false_eq_true, if_false] at h
    exact h

theorem strReplaceAux_id {old new : Str} :
    ∀ (fuel : Nat) (hay : Str) (i : Nat), strFindAux old hay i = none →
    strReplaceAux old new hay fuel = hay := by
  intro fuel
  induction fuel with
  | zero => intro hay i _; rfl
  | succ fuel ih =>
    intro hay i h
    have hp := strFindAux_none_head h
    unfold strReplaceAux
    rw [hp]
    simp only [Bool.false_eq_true, if_false]
    cases hay with
    | nil => rfl
    | cons c t =>
      show c :: strReplaceAux old new t fuel = c :: t
      rw [ih t (i + 1) (strFindAux_none_tail h)]

theorem strReplace_of_not_contains {s old new : Str} (h : containsSubstr s old = false) :
    strReplace s old new = s := by
  have hfind : strFind s old = none := by
    unfold containsSubstr at h
    cases hf : strFind s old with
    | none => rfl
    | some v => rw [hf] at h; simp at h
  have hne : old ≠ [] := by
    intro he
    rw [he, strFind_nil_needle] at hfind
    cases hfind
  unfold strReplace
  rw [if_neg (by simpa [List.isEmpty_iff] using hne)]
  exact strReplaceAux_id (s.length + 1) s 0 hfind

theorem foldl_unmask_guard_eq :
    ∀ (m : List (Str × PIIMapEntry)) (t : Str),
      m.foldl (fun unmasked p =>
        if containsSubstr unmasked p.1 then strReplace unmasked p.1 p.2.masked_value
        else unmasked) t =
      m.foldl (fun acc p => strReplace acc p.1 p.2.masked_value) t := by
  intro m
  induction m with
  | nil => intro t; rfl
  | cons p m ih =>
    intro t
    rw [List.foldl_cons, List.foldl_cons]
    cases hc : containsSubstr t p.1 with
    | true => rw [if_pos rfl]; exact ih _
    | false =>
      rw [if_neg (by simp)]
      rw [strReplace_of_not_contains hc]
      exact ih t

/-- C8: with a present (non-expired) token map, `unmask_response`
replaces the occurrences of every token of the map by that token's
stored `masked_value`, in map order; the raw PII value plays no role
(a `PIIMapEntry` does not even contain it). -/
theorem unmask_replaces_tokens_with_masked_value (masked : Str)
    (m : List (Str × PIIMapEntry)) :
    unmask_response masked (some m) =
      m.foldl (fun acc p => strReplace acc p.1 p.2.masked_value) masked := by
  show (if m.isEmpty then masked
    else m.foldl (fun unmasked p =>
      if containsSubstr unmasked p.1 then strReplace unmasked p.1 p.2.masked_value
      else unmasked) masked) = _
  by_cases hm : m.isEmpty
  · rw [if_pos hm]
    rw [List.isEmpty_iff] at hm
    subst hm
    rfl
  · rw [if_neg hm]
    exact foldl_unmask_guard_eq m masked

/-- C10: when no token map is stored for the session (absent or
expired), `unmask_response` returns the masked text unchanged and does
not fail. -/
theorem unmask_absent_map_returns_input (masked : Str) :
    unmask_response masked none = masked := rfl

/-- C7: whenever detection finds no PII (the empty string included),
the pipeline returns normally with count 0, no reported detections, an
empty token map, the input text unchanged as masked text, and no cache
writes. -/
theorem pipeline_no_pii_is_identity (nlp : Option (Str → List SpacyEnt)) (sha : Str → Str)
    (sid ts text : Str) (h : detect_pii nlp text = []) :
    (process_user_input nlp sha sid ts text).1.masked_text = text ∧
    (process_user_input nlp sha sid ts text).1.pii_count = 0 ∧
    (process_user_input nlp sha sid ts text).1.pii_detected = [] ∧
    (mask_text sha text (detect_pii nlp text)).2 = [] ∧
    (process_user_input nlp sha sid ts text).2 = [] := by
  unfold process_user_input
  rw [h]
  simp [mask_text]

/-- Witness: the empty string produces no detections, and the pipeline
leaves it unchanged. -/
theorem pipeline_no_pii_is_identity_witness :
    detect_pii none (strOf "") = [] ∧
    (process_user_input none (fun v => v) (strOf "s") (strOf "t") (strOf "")).1.masked_text
      = strOf "" :=
  ⟨by decide,
    (pipeline_no_pii_is_identity none (fun v => v) (strOf "s") (strOf "t") (strOf "")
      (by decide)).1⟩

/-! ### The Lexical Name Detector: one span per token position, offsets
from the first occurrence of the cleaned token -/

/-- The condition under which one whitespace token of the text makes
`detect_indian_names` emit a span: its cleaned form is a dictionary
name and (always true in practice) `find` locates it. -/
def emitsName (text w : Str) : Bool :=
  (indian_names_male.contains (cleanWord w) || indian_names_female.contains (cleanWord w)) &&
    (strFind (strLower text) (cleanWord w)).isSome

theorem nameEmit_length (text : Str) (ds : List PIIDetection) (w : Str) :
    (nameEmit text ds w).length = ds.length + (if emitsName text w then 1 else 0) := by
  cases hn : (indian_names_male.contains (cleanWord w)
      || indian_names_female.contains (cleanWord w)) with
  | false =>
    have he : emitsName text w = false := by unfold emitsName; rw [hn]; rfl
    unfold nameEmit
    simp only [hn, he, Bool.false_eq_true, if_false]
    simp
  | true =>
    unfold nameEmit
    cases hf : strFind (strLower text) (cleanWord w) with
    | none =>
      have he : emitsName text w = false := by unfold emitsName; rw [hn, hf]; rfl
      simp only [hn, hf, he, eq_self_iff_true, if_true, Bool.false_eq_true, if_false]
      simp
    | some s =>
      have he : emitsName text w = true := by unfold emitsName; rw [hn, hf]; rfl
      simp only [hn, hf, he, eq_self_iff_true, if_true]
      simp

theorem foldl_nameEmit_length (text : Str) :
    ∀ (ws : List Str) (ds : List PIIDetection),
      (ws.foldl (nameEmit text) ds).length = ds.length + ws.countP (emitsName text) := by
  intro ws
  induction ws with
  | nil => intro ds; simp
  | cons w ws ih =>
    intro ds
    rw [List.foldl_cons, ih, nameEmit_length, List.countP_cons]
    by_cases h : emitsName text w <;> simp [h] <;> omega

/-- Per-element facts preserved by the name-detector loop: the token is
`[NAME_MASKED_i]` for the element's index, the start offset is the
first occurrence of the cleaned token in the lowered text, and the end
offset is start plus token length. -/
def NameListOk (text : Str) (ds : List PIIDetection) : Prop :=
  ∀ i (h : i < ds.length),
    (ds.get ⟨i, h⟩).token = pfxToken (strOf "NAME_MASKED_") i ∧
    strFind (strLower text) (ds.get ⟨i, h⟩).value = some (ds.get ⟨i, h⟩).start_pos ∧
    (ds.get ⟨i, h⟩).end_pos = (ds.get ⟨i, h⟩).start_pos + (ds.get ⟨i, h⟩).value.length

theorem nameToken_eq (n : Nat) :
    strOf "[NAME_MASKED_" ++ natToStr n ++ strOf "]" = pfxToken (strOf "NAME_MASKED_") n := by
  simp [pfxToken, strOf]

theorem get_append_last {ds : List PIIDetection} {d : PIIDetection} {i : Nat}
    (h : i < (ds ++ [d]).length) :
    (ds ++ [d]).get ⟨i, h⟩ = if h2 : i < ds.length then ds.get ⟨i, h2⟩ else d := by
  split
  · rename_i h2
    exact List.get_append i h2
  · rename_i h2
    have : i = ds.length := by
      simp only [List.length_append, List.length_singleton] at h
      omega
    subst this
    simp

theorem nameEmit_ok {text : Str} {ds : List PIIDetection} {w : Str}
    (hds : NameListOk text ds) : NameListOk text (nameEmit text ds w) := by
  unfold nameEmit
  by_cases hn : (indian_names_male.contains (cleanWord w)
      || indian_names_female.contains (cleanWord w)) = true
  · rw [if_pos hn]
    cases hf : strFind (strLower text) (cleanWord w) with
    | none => exact hds
    | some s =>
      intro i h
      rw [get_append_last]
      split
      · exact hds i _
      · refine ⟨?_, by simpa using hf, by simp⟩
        have hi : i = ds.length := by
          simp only [List.length_append, List.length_singleton] at h
          omega
        simp only [hi]
        exact nameToken_eq ds.length
  · rw [if_neg hn]
    exact hds

theorem foldl_nameEmit_ok (text : Str) :
    ∀ (ws : List Str) (ds : List PIIDetection),
      NameListOk text ds → NameListOk text (ws.foldl (nameEmit text) ds) := by
  intro ws
  induction ws with
  | nil => intro ds h; exact h
  | cons w ws ih =>
    intro ds h
    rw [List.foldl_cons]
    exact ih _ (nameEmit_ok h)

theorem detect_indian_names_ok (text : Str) : NameListOk text (detect_indian_names text) :=
  foldl_nameEmit_ok text (pySplit text) [] (fun i h => absurd h (by simp))

/-- C3 (amended): the Lexical Name Detector emits one span per
whitespace-token position whose cleaned token is a dictionary name, and
every emitted span carries the offsets of the FIRST occurrence of its
cleaned, lower-cased token in the lower-cased text (not the occurrence
at the token's own position). -/
theorem lexical_names_spans_and_first_occurrence_offsets (text : Str) :
    (detect_indian_names text).length = (pySplit text).countP (emitsName text) ∧
    ∀ d ∈ detect_indian_names text,
      strFind (strLower text) d.value = some d.start_pos ∧
      d.end_pos = d.start_pos + d.value.length := by
  constructor
  · rw [detect_indian_names, foldl_nameEmit_length]
    simp
  · intro d hd
    rcases List.mem_iff_get.mp hd with ⟨i, hi⟩
    have := detect_indian_names_ok text i.1 i.2
    rw [hi] at this
    exact ⟨this.2.1, this.2.2⟩

/-- Concrete span emitted for the single name in `"suresh here"`. -/
def wNameSpan : PIIDetection :=
  ⟨strOf "indian_name", strOf "suresh", 0, 6, strOf "name_pattern",
    strOf "[NAME_MASKED_0]", strOf "[NAME_MASKED_0]"⟩

/-- Witness for the amended name-detector theorem at a concrete text. -/
theorem lexical_names_spans_witness :
    (detect_indian_names (strOf "suresh here")).length
        = (pySplit (strOf "suresh here")).countP (emitsName (strOf "suresh here")) ∧
    (strFind (strLower (strOf "suresh here")) wNameSpan.value = some wNameSpan.start_pos ∧
      wNameSpan.end_pos = wNameSpan.start_pos + wNameSpan.value.length) :=
  ⟨(lexical_names_spans_and_first_occurrence_offsets (strOf "suresh here")).1,
    (lexical_names_spans_and_first_occurrence_offsets (strOf "suresh here")).2
      wNameSpan (by decide)⟩

/-- C3 counterexample: in `"rahul rahul"` the same dictionary name
occupies two token positions; the detector emits two spans but both
carry the offsets `(0, 5)` of the first occurrence, so the second span
does not carry the offsets `(6, 11)` of its own occurrence. -/
theorem lexical_names_repeated_token_counterexample :
    (detect_indian_names (strOf "rahul rahul")).map (fun d => (d.start_pos, d.end_pos))
      = [(0, 5), (0, 5)] := by decide

/-! ### Token uniqueness across all three detectors -/

/-- The tokens of a detection list. -/
def tokensOf (l : List PIIDetection) : List Str := l.map (fun d => d.token)

/-- Per-element facts preserved by the regex-detector loops: the
category is one of the five pattern names and the token is
`[<CATEGORY upper-cased>_MASKED_<index among all regex detections>]`. -/
def RegexListOk (ds : List PIIDetection) : Prop :=
  ∀ i (h : i < ds.length),
    (ds.get ⟨i, h⟩).pii_type ∈ patterns.map Prod.fst ∧
    (ds.get ⟨i, h⟩).token = regexToken ((ds.get ⟨i, h⟩).pii_type) i

theorem regexEmit_ok {ty : Str} {ds : List PIIDetection} {m : Nat × Nat × Str}
    (hty : ty ∈ patterns.map Prod.fst) (h : RegexListOk ds) :
    RegexListOk (regexEmit ty ds m) := by
  unfold regexEmit
  intro i hi
  simp only at hi
  rw [get_append_last]
  split
  · exact h i _
  · rename_i h2
    have hieq : i = ds.length := by
      simp only [List.length_append, List.length_singleton] at hi
      omega
    subst hieq
    exact ⟨hty, rfl⟩

theorem foldl_regexEmit_ok {ty : Str} (hty : ty ∈ patterns.map Prod.fst) :
    ∀ (ms : List (Nat × Nat × Str)) (ds : List PIIDetection),
      RegexListOk ds → RegexListOk (ms.foldl (regexEmit ty) ds) := by
  intro ms
  induction ms with
  | nil => intro ds h; exact h
  | cons m ms ih =>
    intro ds h
    rw [List.foldl_cons]
    exact ih _ (regexEmit_ok hty h)

theorem foldl_patterns_ok (text : Str) :
    ∀ (ps : List (Str × RE)), (∀ p ∈ ps, p.1 ∈ patterns.map Prod.fst) →
    ∀ acc, RegexListOk acc →
      RegexListOk (ps.foldl (fun ds p => (finditer p.2 text).foldl (regexEmit p.1) ds) acc) := by
  intro ps
  induction ps with
  | nil => intro _ acc h; exact h
  | cons p ps ih =>
    intro hps acc h
    rw [List.foldl_cons]
    exact ih (fun q hq => hps q (by simp [hq])) _
      (foldl_regexEmit_ok (hps p (by simp)) _ _ h)

theorem detect_pii_regex_ok (text : Str) : RegexListOk (detect_pii_regex text) :=
  foldl_patterns_ok text patterns (fun p hp => List.mem_map_of_mem Prod.fst hp) []
    (fun i h => absurd h (by simp))

/-- Tokens of NER detections given the running per-category counters:
each is a `PERSON`/`ORG` token with ordinal below its counter, and they
are pairwise distinct. -/
def NerTokensOk (ds : List PIIDetection) (pc oc : Nat) : Prop :=
  (∀ t ∈ tokensOf ds,
    (∃ k, k < pc ∧ t = pfxToken (strOf "PERSON_MASKED_") k) ∨
    (∃ k, k < oc ∧ t = pfxToken (strOf "ORG_MASKED_") k)) ∧
  (tokensOf ds).Nodup

theorem person_pfx_nondigit : ∀ c ∈ strOf "PERSON_MASKED_", c.isDigit = false := by decide

theorem org_pfx_nondigit : ∀ c ∈ strOf "ORG_MASKED_", c.isDigit = false := by decide

theorem name_pfx_nondigit : ∀ c ∈ strOf "NAME_MASKED_", c.isDigit = false := by decide

theorem personToken_eq (k : Nat) :
    strOf "[PERSON_MASKED_" ++ natToStr k ++ strOf "]" = pfxToken (strOf "PERSON_MASKED_") k := by
  simp [pfxToken, strOf]

theorem orgToken_eq (k : Nat) :
    strOf "[ORG_MASKED_" ++ natToStr k ++ strOf "]" = pfxToken (strOf "ORG_MASKED_") k := by
  simp [pfxToken, strOf]

theorem tokensOf_append (l₁ l₂ : List PIIDetection) :
    tokensOf (l₁ ++ l₂) = tokensOf l₁ ++ tokensOf l₂ := by
  simp [tokensOf]

theorem nerEmit_ok (ds : List PIIDetection) (pc oc : Nat) (ent : SpacyEnt)
    (h : NerTokensOk ds pc oc) :
    NerTokensOk (nerEmit (ds, pc, oc) ent).1
      (nerEmit (ds, pc, oc) ent).2.1 (nerEmit (ds, pc, oc) ent).2.2 := by
  unfold nerEmit
  by_cases hl : ent.label = strOf "PERSON" ∨ ent.label = strOf "ORG"
  · rw [if_pos hl]
    by_cases hp : strLower ent.label = strOf "person"
    · rw [if_pos hp]
      simp only
      constructor
      · intro t ht
        rw [tokensOf_append] at ht
        rcases List.mem_append.mp ht with ht | ht
        · rcases h.1 t ht with ⟨k, hk, rfl⟩ | ⟨k, hk, rfl⟩
          · exact Or.inl ⟨k, by omega, rfl⟩
          · exact Or.inr ⟨k, hk, rfl⟩
        · simp only [tokensOf, List.map_cons, List.map_nil, List.mem_singleton] at ht
          subst ht
          exact Or.inl ⟨pc, by omega, (personToken_eq pc).symm⟩
      · rw [tokensOf_append]
        apply List.Nodup.append h.2 (by simp [tokensOf])
        intro t ht ht2
        simp only [tokensOf, List.map_cons, List.map_nil, List.mem_singleton] at ht2
        subst ht2
        rcases h.1 _ ht with ⟨k, hk, he⟩ | ⟨k, hk, he⟩
        · have := (pfxToken_inj _ _ _ _ person_pfx_nondigit person_pfx_nondigit
            (he.symm.trans (personToken_eq pc))).2
          omega
        · have := pfxToken_inj _ _ _ _ org_pfx_nondigit person_pfx_nondigit
            (he.symm.trans (personToken_eq pc))
          exact absurd this.1.symm (by decide)
    · rw [if_neg hp]
      simp only
      constructor
      · intro t ht
        rw [tokensOf_append] at ht
        rcases List.mem_append.mp ht with ht | ht
        · rcases h.1 t ht with ⟨k, hk, rfl⟩ | ⟨k, hk, rfl⟩
          · exact Or.inl ⟨k, hk, rfl⟩
          · exact Or.inr ⟨k, by omega, rfl⟩
        · simp only [tokensOf, List.map_cons, List.map_nil, List.mem_singleton] at ht
          subst ht
          exact Or.inr ⟨oc, by omega, (orgToken_eq oc).symm⟩
      · rw [tokensOf_append]
        apply List.Nodup.append h.2 (by simp [tokensOf])
        intro t ht ht2
        simp only [tokensOf, List.map_cons, List.map_nil, List.mem_singleton] at ht2
        subst ht2
        rcases h.1 _ ht with ⟨k, hk, he⟩ | ⟨k, hk, he⟩
        · have := pfxToken_inj _ _ _ _ person_pfx_nondigit org_pfx_nondigit
            (he.symm.trans (orgToken_eq oc))
          exact absurd this.1.symm (by decide)
        · have := (pfxToken_inj _ _ _ _ org_pfx_nondigit org_pfx_nondigit
            (he.symm.trans (orgToken_eq oc))).2
          omega
  · rw [if_neg hl]
    exact h

theorem foldl_nerEmit_ok :
    ∀ (ents : List SpacyEnt) (st : List PIIDetection × Nat × Nat),
      NerTokensOk st.1 st.2.1 st.2.2 →
      NerTokensOk (ents.foldl nerEmit st).1
        (ents.foldl nerEmit st).2.1 (ents.foldl nerEmit st).2.2 := by
  intro ents
  induction ents with
  | nil => intro st h; exact h
  | cons e ents ih =>
    intro st h
    rw [List.foldl_cons]
    have := nerEmit_ok st.1 st.2.1 st.2.2 e h
    exact ih (nerEmit st e) this

theorem detect_pii_ner_tokens (nlp : Option (Str → List SpacyEnt)) (text : Str) :
    (tokensOf (detect_pii_ner nlp text)).Nodup ∧
    ∀ t ∈ tokensOf (detect_pii_ner nlp text),
      (∃ k, t = pfxToken (strOf "PERSON_MASKED_") k) ∨
      (∃ k, t = pfxToken (strOf "ORG_MASKED_") k) := by
  unfold detect_pii_ner
  cases nlp with
  | none => exact ⟨by simp [tokensOf], by intro t ht; simp [tokensOf] at ht⟩
  | some model =>
    have h := foldl_nerEmit_ok (model text) ([], 0, 0)
      ⟨by intro t ht; simp [tokensOf] at ht, by simp [tokensOf]⟩
    refine ⟨h.2, ?_⟩
    intro t ht
    rcases h.1 t ht with ⟨k, _, rfl⟩ | ⟨k, _, rfl⟩
    · exact Or.inl ⟨k, rfl⟩
    · exact Or.inr ⟨k, rfl⟩

theorem nodup_tokens_of_indexed (ds : List PIIDetection)
    (h : ∀ i (hi : i < ds.length), ∃ pfx, (∀ c ∈ pfx, c.isDigit = false) ∧
      (ds.get ⟨i, hi⟩).token = pfxToken pfx i) :
    (tokensOf ds).Nodup := by
  unfold tokensOf
  rw [List.nodup_iff_injective_getElem]
  intro i j hij
  simp only [List.getElem_map] at hij
  have hi : i.1 < ds.length := by simpa using i.2
  have hj : j.1 < ds.length := by simpa using j.2
  obtain ⟨p1, hp1, ht1⟩ := h i.1 hi
  obtain ⟨p2, hp2, ht2⟩ := h j.1 hj
  rw [List.get_eq_getElem] at ht1 ht2
  rw [ht1, ht2] at hij
  exact Fin.ext ((pfxToken_inj p1 p2 i.1 j.1 hp1 hp2 hij).2)

theorem key_pfx_nondigit {ty : Str} (hty : ty ∈ patterns.map Prod.fst) :
    ∀ c ∈ strUpper ty ++ strOf "_MASKED_", c.isDigit = false := by
  have h5 : ty = strOf "phone" ∨ ty = strOf "email" ∨ ty = strOf "aadhar" ∨
      ty = strOf "credit_card" ∨ ty = strOf "pan" := by
    simpa [patterns] using hty
  rcases h5 with rfl | rfl | rfl | rfl | rfl <;> decide

theorem regex_tokens_nodup (text : Str) : (tokensOf (detect_pii_regex text)).Nodup := by
  apply nodup_tokens_of_indexed
  intro i hi
  have h := detect_pii_regex_ok text i hi
  exact ⟨strUpper ((detect_pii_regex text).get ⟨i, hi⟩).pii_type ++ strOf "_MASKED_",
    key_pfx_nondigit h.1, by rw [h.2, regexToken_eq_pfxToken]⟩

theorem name_tokens_nodup (text : Str) : (tokensOf (detect_indian_names text)).Nodup := by
  apply nodup_tokens_of_indexed
  intro i hi
  exact ⟨strOf "NAME_MASKED_", name_pfx_nondigit, (detect_indian_names_ok text i hi).1⟩

theorem tokens_regex_pfx {text : Str} {t : Str} (h : t ∈ tokensOf (detect_pii_regex text)) :
    ∃ ty ∈ patterns.map Prod.fst, ∃ n,
      t = pfxToken (strUpper ty ++ strOf "_MASKED_") n := by
  rcases List.mem_map.mp h with ⟨d, hd, rfl⟩
  rcases List.mem_iff_get.mp hd with ⟨i, rfl⟩
  have hok := detect_pii_regex_ok text i.1 i.2
  exact ⟨_, hok.1, i.1, by rw [hok.2, regexToken_eq_pfxToken]⟩

theorem tokens_name_pfx {text : Str} {t : Str} (h : t ∈ tokensOf (detect_indian_names text)) :
    ∃ n, t = pfxToken (strOf "NAME_MASKED_") n := by
  rcases List.mem_map.mp h with ⟨d, hd, rfl⟩
  rcases List.mem_iff_get.mp hd with ⟨i, rfl⟩
  exact ⟨i.1, (detect_indian_names_ok text i.1 i.2).1⟩

theorem key_pfx_ne_person_org_name {ty : Str} (hty : ty ∈ patterns.map Prod.fst) :
    strUpper ty ++ strOf "_MASKED_" ≠ strOf "PERSON_MASKED_" ∧
    strUpper ty ++ strOf "_MASKED_" ≠ strOf "ORG_MASKED_" ∧
    strUpper ty ++ strOf "_MASKED_" ≠ strOf "NAME_MASKED_" := by
  have h5 : ty = strOf "phone" ∨ ty = strOf "email" ∨ ty = strOf "aadhar" ∨
      ty = strOf "credit_card" ∨ ty = strOf "pan" := by
    simpa [patterns] using hty
  rcases h5 with rfl | rfl | rfl | rfl | rfl <;> exact ⟨by decide, by decide, by decide⟩

theorem all_detector_tokens_nodup (nlp : Option (Str → List SpacyEnt)) (text : Str) :
    (tokensOf (detect_pii_regex text ++ detect_pii_ner nlp text
      ++ detect_indian_names text)).Nodup := by
  rw [tokensOf_append, tokensOf_append, List.append_assoc]
  have hner := detect_pii_ner_tokens nlp text
  apply List.Nodup.append (regex_tokens_nodup text)
  · apply List.Nodup.append hner.1 (name_tokens_nodup text)
    intro t htB htC
    rcases hner.2 t htB with ⟨k, rfl⟩ | ⟨k, rfl⟩
    · rcases tokens_name_pfx htC with ⟨n, he⟩
      have := (pfxToken_inj _ _ _ _ person_pfx_nondigit name_pfx_nondigit he).1
      exact absurd this (by decide)
    · rcases tokens_name_pfx htC with ⟨n, he⟩
      have := (pfxToken_inj _ _ _ _ org_pfx_nondigit name_pfx_nondigit he).1
      exact absurd this (by decide)
  · intro t htA htBC
    rcases tokens_regex_pfx htA with ⟨ty, hty, n, rfl⟩
    have hne := key_pfx_ne_person_org_name hty
    rcases List.mem_append.mp htBC with htB | htC
    · rcases hner.2 _ htB with ⟨k, he⟩ | ⟨k, he⟩
      · exact absurd (pfxToken_inj _ _ _ _ (key_pfx_nondigit hty)
          person_pfx_nondigit he).1 hne.1
      · exact absurd (pfxToken_inj _ _ _ _ (key_pfx_nondigit hty)
          org_pfx_nondigit he).1 hne.2.1
    · rcases tokens_name_pfx htC with ⟨k, he⟩
      exact absurd (pfxToken_inj _ _ _ _ (key_pfx_nondigit hty)
        name_pfx_nondigit he).1 hne.2.2

/-- Is a detection a NER `person` span? -/
def isPersonD (d : PIIDetection) : Bool := d.pii_type == strOf "person"

/-- Is a detection a NER `org` span? -/
def isOrgD (d : PIIDetection) : Bool := d.pii_type == strOf "org"

/-- Per-element facts for the NER detection list: every span is a
`person` or `org` span whose token ordinal is the per-category count of
EARLIER spans of the same category — the running `person_count` /
`org_count` of the source, i.e. a per-category ordinal 0, 1, 2, …. -/
def NerListOk (ds : List PIIDetection) : Prop :=
  ∀ i (h : i < ds.length),
    ((ds.get ⟨i, h⟩).pii_type = strOf "person" ∧
      (ds.get ⟨i, h⟩).token
        = pfxToken (strOf "PERSON_MASKED_") ((ds.take i).countP isPersonD)) ∨
    ((ds.get ⟨i, h⟩).pii_type = strOf "org" ∧
      (ds.get ⟨i, h⟩).token
        = pfxToken (strOf "ORG_MASKED_") ((ds.take i).countP isOrgD))

theorem take_append_le {l₁ l₂ : List PIIDetection} {n : Nat} (h : n ≤ l₁.length) :
    (l₁ ++ l₂).take n = l₁.take n := by
  rw [List.take_append_eq_append_take, Nat.sub_eq_zero_of_le h]
  simp

theorem nerEmit_ordinals (ds : List PIIDetection) (pc oc : Nat) (ent : SpacyEnt)
    (h : NerListOk ds) (hpc : pc = ds.countP isPersonD) (hoc : oc = ds.countP isOrgD) :
    NerListOk (nerEmit (ds, pc, oc) ent).1 ∧
    (nerEmit (ds, pc, oc) ent).2.1 = (nerEmit (ds, pc, oc) ent).1.countP isPersonD ∧
    (nerEmit (ds, pc, oc) ent).2.2 = (nerEmit (ds, pc, oc) ent).1.countP isOrgD := by
  unfold nerEmit
  by_cases hl : ent.label = strOf "PERSON" ∨ ent.label = strOf "ORG"
  · rw [if_pos hl]
    by_cases hp : strLower ent.label = strOf "person"
    · rw [if_pos hp]
      simp only
      refine ⟨?_, ?_, ?_⟩
      · intro i hi
        rw [get_append_last]
        split
        · rename_i h2
          rw [take_append_le (Nat.le_of_lt h2)]
          exact h i h2
        · rename_i h2
          have hieq : i = ds.length := by
            simp only [List.length_append, List.length_singleton] at hi
            omega
          subst hieq
          left
          refine ⟨hp, ?_⟩
          show strOf "[PERSON_MASKED_" ++ natToStr pc ++ strOf "]" = _
          rw [List.take_left, personToken_eq, hpc]
      · simp [List.countP_append, List.countP_cons, isPersonD, hp, hpc]
      · have hne : (strOf "person" == strOf "org") = false := by decide
        simp [List.countP_append, List.countP_cons, isOrgD, hp, hne, hoc]
    · rw [if_neg hp]
      have horg : strLower ent.label = strOf "org" := by
        rcases hl with h1 | h1
        · exfalso
          apply hp
          rw [h1]
          decide
        · rw [h1]
          decide
      simp only
      refine ⟨?_, ?_, ?_⟩
      · intro i hi
        rw [get_append_last]
        split
        · rename_i h2
          rw [take_append_le (Nat.le_of_lt h2)]
          exact h i h2
        · rename_i h2
          have hieq : i = ds.length := by
            simp only [List.length_append, List.length_singleton] at hi
            omega
          subst hieq
          right
          refine ⟨horg, ?_⟩
          show strOf "[ORG_MASKED_" ++ natToStr oc ++ strOf "]" = _
          rw [List.take_left, orgToken_eq, hoc]
      · have hne : (strOf "org" == strOf "person") = false := by decide
        simp [List.countP_append, List.countP_cons, isPersonD, horg, hne, hpc]
      · simp [List.countP_append, List.countP_cons, isOrgD, horg, hoc]
  · rw [if_neg hl]
    exact ⟨h, hpc, hoc⟩

theorem foldl_nerEmit_ordinals :
    ∀ (ents : List SpacyEnt) (st : List PIIDetection × Nat × Nat),
      NerListOk st.1 → st.2.1 = st.1.countP isPersonD → st.2.2 = st.1.countP isOrgD →
      NerListOk (ents.foldl nerEmit st).1 := by
  intro ents
  induction ents with
  | nil => intro st h _ _; exact h
  | cons e ents ih =>
    intro st h hpc hoc
    rw [List.foldl_cons]
    have hstep := nerEmit_ordinals st.1 st.2.1 st.2.2 e h hpc hoc
    exact ih (nerEmit st e) hstep.1 hstep.2.1 hstep.2.2

theorem detect_pii_ner_ordinals (nlp : Option (Str → List SpacyEnt)) (text : Str) :
    NerListOk (detect_pii_ner nlp text) := by
  unfold detect_pii_ner
  cases nlp with
  | none => intro i h; simp at h
  | some model =>
    exact foldl_nerEmit_ordinals (model text) ([], 0, 0)
      (fun i h => absurd h (by simp)) rfl rfl

/-- C5 (amended): within one invocation the tokens of all spans emitted
by the three detectors are pairwise distinct; regex tokens are
`[<CATEGORY>_MASKED_n]` where `n` is the index among ALL regex
detections of the invocation (a running count across the five
categories, not a per-category ordinal); name tokens are
`[NAME_MASKED_n]` with `n` the index among name detections; NER tokens
are `[PERSON_MASKED_k]` / `[ORG_MASKED_k]` where `k` is the
per-category ordinal — the number of earlier NER spans of the same
category (`NerListOk`). -/
theorem detector_tokens_unique_and_format (nlp : Option (Str → List SpacyEnt)) (text : Str) :
    (tokensOf (detect_pii_regex text ++ detect_pii_ner nlp text
      ++ detect_indian_names text)).Nodup ∧
    (∀ i (h : i < (detect_pii_regex text).length),
      ((detect_pii_regex text).get ⟨i, h⟩).token
        = regexToken (((detect_pii_regex text).get ⟨i, h⟩).pii_type) i) ∧
    (∀ i (h : i < (detect_indian_names text).length),
      ((detect_indian_names text).get ⟨i, h⟩).token = pfxToken (strOf "NAME_MASKED_") i) ∧
    NerListOk (detect_pii_ner nlp text) :=
  ⟨all_detector_tokens_nodup nlp text,
    fun i h => (detect_pii_regex_ok text i h).2,
    fun i h => (detect_indian_names_ok text i h).1,
    detect_pii_ner_ordinals nlp text⟩

/-- A concrete spaCy model: two `PERSON` entities and one `ORG`
entity, to exercise the per-category ordinals. -/
def wNerModel : Str → List SpacyEnt := fun _ =>
  [⟨strOf "PERSON", strOf "Bob", 0, 3⟩, ⟨strOf "ORG", strOf "Acme", 10, 14⟩,
   ⟨strOf "PERSON", strOf "Ann", 20, 23⟩]

/-- Witness for the token-format theorem: a concrete two-span regex
text, and a concrete NER run in which the second `PERSON` span (index 2
overall) receives the per-category ordinal 1. -/
theorem detector_tokens_unique_and_format_witness :
    (tokensOf (detect_pii_regex (strOf "9876543210 a@b.co")
      ++ detect_pii_ner none (strOf "9876543210 a@b.co")
      ++ detect_indian_names (strOf "9876543210 a@b.co"))).Nodup ∧
    ((detect_pii_regex (strOf "9876543210 a@b.co")).get ⟨1, by decide⟩).token
      = regexToken
          (((detect_pii_regex (strOf "9876543210 a@b.co")).get ⟨1, by decide⟩).pii_type) 1 ∧
    ((((detect_pii_ner (some wNerModel) (strOf "x")).get ⟨2, by decide⟩).pii_type
          = strOf "person" ∧
        ((detect_pii_ner (some wNerModel) (strOf "x")).get ⟨2, by decide⟩).token
          = pfxToken (strOf "PERSON_MASKED_")
              (((detect_pii_ner (some wNerModel) (strOf "x")).take 2).countP isPersonD)) ∨
      (((detect_pii_ner (some wNerModel) (strOf "x")).get ⟨2, by decide⟩).pii_type
          = strOf "org" ∧
        ((detect_pii_ner (some wNerModel) (strOf "x")).get ⟨2, by decide⟩).token
          = pfxToken (strOf "ORG_MASKED_")
              (((detect_pii_ner (some wNerModel) (strOf "x")).take 2).countP isOrgD))) :=
  ⟨(detector_tokens_unique_and_format none (strOf "9876543210 a@b.co")).1,
    (detector_tokens_unique_and_format none (strOf "9876543210 a@b.co")).2.1 1 (by decide),
    (detector_tokens_unique_and_format (some wNerModel) (strOf "x")).2.2.2 2 (by decide)⟩

/-- C5 counterexample: in `"9876543210 a@b.co"` the email span is the
first span of category `email` in the invocation, yet its token is
`[EMAIL_MASKED_1]` — the ordinal is the running index among all regex
detections, not a per-category ordinal (which would demand
`[EMAIL_MASKED_0]`). -/
theorem regex_token_not_per_category_counterexample :
    (detect_pii_regex (strOf "9876543210 a@b.co")).map (fun d => (d.pii_type, d.token)) =
      [(strOf "phone", strOf "[PHONE_MASKED_0]"),
       (strOf "email", strOf "[EMAIL_MASKED_1]")] := by decide

/-! ### Payment-card redaction and phone masking at concrete inputs -/

/-- C4 evaluation at the failing input: on
`"4111-1111-1111-1111"` the `aadhar` pattern matches characters 0–14
first; the full-card match is discarded by the resolver at equal
priority, so the pipeline masks only the first 14 characters and the
masked text `"[REDACTED]-1111"` still contains the contiguous run
`1111` of original card digits — the claimed property fails. -/
theorem card_redaction_leaks_digit_run :
    (mask_text (fun v => v) (strOf "4111-1111-1111-1111")
        (detect_pii none (strOf "4111-1111-1111-1111"))).1 = strOf "[REDACTED]-1111" ∧
    containsSubstr
      (mask_text (fun v => v) (strOf "4111-1111-1111-1111")
        (detect_pii none (strOf "4111-1111-1111-1111"))).1 (strOf "1111") = true ∧
    (detect_pii none (strOf "4111-1111-1111-1111")).map
        (fun d => (d.pii_type, d.start_pos, d.end_pos)) = [(strOf "aadhar", 0, 14)] := by
  refine ⟨by decide, by decide, by decide⟩

/-- C6: on `"+91-8765432109"` pattern detection yields exactly one
span, category `phone`, whose masked value keeps the leading `+91`
marker, masks the middle with fixed-width stars, and ends in the
literal last four digits `2109`. -/
theorem phone_detection_classification_and_mask :
    detect_pii_regex (strOf "+91-8765432109") =
      [⟨strOf "phone", strOf "+91-8765432109", 0, 14, strOf "regex",
        strOf "+91-****-****-2109", strOf "[PHONE_MASKED_0]"⟩] := by decide

/-! ### The audit record -/

theorem dictInsert_ne_nil (m : List (Str × PIIMapEntry)) (k : Str) (v : PIIMapEntry) :
    dictInsert m k v ≠ [] := by
  unfold dictInsert
  split
  · rename_i hany
    intro h
    rw [List.map_eq_nil_iff] at h
    subst h
    simp at hany
  · simp

theorem maskStep_map_ne_nil (sha : Str → Str) (st : Str × List (Str × PIIMapEntry))
    (d : PIIDetection) : (maskStep sha st d).2 ≠ [] :=
  dictInsert_ne_nil _ _ _

theorem foldl_maskStep_map_ne_nil (sha : Str → Str) :
    ∀ (l : List PIIDetection) (st : Str × List (Str × PIIMapEntry)),
      st.2 ≠ [] → (l.foldl (maskStep sha) st).2 ≠ [] := by
  intro l
  induction l with
  | nil => intro st h; exact h
  | cons d l ih =>
    intro st h
    rw [List.foldl_cons]
    exact ih _ (maskStep_map_ne_nil sha st d)

theorem mask_text_map_ne_nil (sha : Str → Str) (text : Str) (ds : List PIIDetection)
    (h : ds ≠ []) : (mask_text sha text ds).2 ≠ [] := by
  unfold mask_text
  rw [if_neg (by simpa [List.isEmpty_iff] using h)]
  cases hs : sortByStartDesc ds with
  | nil =>
    exfalso
    apply h
    have hperm := List.perm_insertionSort
      (fun a b : PIIDetection => b.start_pos ≤ a.start_pos) ds
    rw [sortByStartDesc] at hs
    rw [hs] at hperm
    exact hperm.symm.eq_nil
  | cons d rest =>
    rw [List.foldl_cons]
    exact foldl_maskStep_map_ne_nil sha rest _ (maskStep_map_ne_nil sha _ d)

/-- C9 (amended): when at least one PII span is detected, the pipeline
performs exactly two cache writes: the token map under
`pii_map:{session_id}` with a 1-hour TTL and, once per invocation, the
audit record under `pii_audit:{session_id}` with a 24-hour TTL whose
content is only the session id, timestamp, the per-detection category
list, the distinct detection methods and the count — no raw values and
no per-item hashes.  When nothing is detected, no audit record is
written (see the counterexample). -/
theorem audit_record_on_detection (nlp : Option (Str → List SpacyEnt)) (sha : Str → Str)
    (sid ts text : Str) (h : detect_pii nlp text ≠ []) :
    (process_user_input nlp sha sid ts text).2 =
      [⟨strOf "pii_map:" ++ sid,
        CacheValue.piiMap (mask_text sha text (detect_pii nlp text)).2, 3600⟩,
       ⟨strOf "pii_audit:" ++ sid,
        CacheValue.audit ⟨sid, ts, (detect_pii nlp text).map (fun d => d.pii_type),
          ((detect_pii nlp text).map (fun d => d.detection_method)).eraseDups,
          (detect_pii nlp text).length⟩, 86400⟩] := by
  have hmap := mask_text_map_ne_nil sha text (detect_pii nlp text) h
  unfold process_user_input
  simp only
  rw [if_neg (by simpa [List.isEmpty_iff] using hmap)]

/-- Witness for the audit theorem at a concrete phone-number text. -/
theorem audit_record_on_detection_witness :
    detect_pii none (strOf "9876543210") ≠ [] ∧
    (process_user_input none (fun v => v) (strOf "s") (strOf "t") (strOf "9876543210")).2 =
      [⟨strOf "pii_map:" ++ strOf "s",
        CacheValue.piiMap (mask_text (fun v => v) (strOf "9876543210")
          (detect_pii none (strOf "9876543210"))).2, 3600⟩,
       ⟨strOf "pii_audit:" ++ strOf "s",
        CacheValue.audit ⟨strOf "s", strOf "t",
          (detect_pii none (strOf "9876543210")).map (fun d => d.pii_type),
          ((detect_pii none (strOf "9876543210")).map
            (fun d => d.detection_method)).eraseDups,
          (detect_pii none (strOf "9876543210")).length⟩, 86400⟩] :=
  ⟨by decide,
    audit_record_on_detection none (fun v => v) (strOf "s") (strOf "t")
      (strOf "9876543210") (by decide)⟩

/-- C9 counterexample: on an invocation that detects nothing (the empty
string), `process_user_input` performs no cache writes at all, so no
audit record is constructed for that invocation — the audit record is
not created once per invocation, only once per invocation that found
PII. -/
theorem audit_record_skipped_without_detection :
    (process_user_input none (fun v => v) (strOf "s") (strOf "t") (strOf "")).2 = [] := by
  decide
